import Mathlib

/-!
# Verification of the charlotte cipher module

Shallow embedding of `src/utils/assists/cipher.py`: key generation with
PBKDF2 over a random salt (`keygen`), double Fernet encryption (`encrypt`)
and the matching double decryption (`decrypt`).

The repository code is pure glue around two external collaborators:

* the `cryptography` package (PBKDF2HMAC key derivation and the Fernet
  authenticated-encryption primitive), and
* the Python `str.encode` / `bytes.decode` text conversions.

Those externals are modelled symbolically but executably below; every
model carries a doc comment stating exactly which facts about the real
primitive the theorems rely on.  The three repository functions
themselves are translated line by line from the Python source.
-/

namespace Charlotte

/-- Byte strings are modelled as lists of natural numbers.  Genuine raw
bytes are values `< 256`; Python text decoded to its code points may
contribute larger values, which the model keeps uninterpreted. -/
abbrev Bytes := List Nat

/-! ## Text model

The Python `str.encode()` / `bytes.decode()` pair is modelled as the code
point map.  The theorems rely only on what the real conversion
guarantees: `encode` is injective, `decode` inverts it, and `decode`
fails on byte strings that are not the encoding of any text. -/

/-- Model of Python `str.encode()`: a text value as its code points. -/
def strEncode (s : String) : Bytes := s.data.map Char.toNat

/-- Model of Python `bytes.decode()`: succeeds exactly when every value
is a valid Unicode scalar, i.e. when the input is `strEncode` of some
text; raises (returns `none`) otherwise. -/
def strDecode (l : Bytes) : Option String :=
  if ∀ v ∈ l, Nat.isValidChar v then some (String.mk (l.map Char.ofNat)) else none

theorem charToNat_ofNat {n : Nat} (h : n.isValidChar) : (Char.ofNat n).toNat = n := by
  unfold Char.ofNat
  rw [dif_pos h]
  rfl

theorem strDecode_strEncode (s : String) : strDecode (strEncode s) = some s := by
  have hvalid : ∀ v ∈ strEncode s, Nat.isValidChar v := by
    intro v hv
    simp only [strEncode, List.mem_map] at hv
    obtain ⟨c, _, rfl⟩ := hv
    exact c.valid
  have hmap : (strEncode s).map Char.ofNat = s.data := by
    simp only [strEncode, List.map_map]
    calc s.data.map (Char.ofNat ∘ Char.toNat) = s.data.map id := by
          apply List.map_congr_left
          intro c _
          exact Char.ofNat_toNat c
      _ = s.data := List.map_id s.data
  simp only [strDecode, if_pos hvalid, hmap]

theorem strEncode_strDecode {l : Bytes} {s : String} (h : strDecode l = some s) :
    strEncode s = l := by
  simp only [strDecode] at h
  split at h
  · rename_i hvalid
    simp only [Option.some.injEq] at h
    subst h
    simp only [strEncode, List.map_map]
    induction l with
    | nil => rfl
    | cons v vs ih =>
      have hv : Nat.isValidChar v := hvalid v (List.mem_cons_self v vs)
      simp only [List.map_cons, Function.comp_apply, charToNat_ofNat hv]
      rw [ih (fun w hw => hvalid w (List.mem_cons_of_mem v hw))]
  · exact absurd h (by simp)

theorem strEncode_injective {s t : String} (h : strEncode s = strEncode t) : s = t := by
  have hs := strDecode_strEncode s
  have ht := strDecode_strEncode t
  rw [h, ht] at hs
  exact (Option.some.injEq _ _ ▸ hs).symm

/-! ## A self-delimiting byte encoding

The symbolic Fernet token below needs an injective, self-delimiting wire
encoding for its fields (the real token uses fixed-width fields; only
injectivity, decodability and monotone length are relied on, so a unary
length encoding is used to keep everything kernel-computable). -/

/-- Self-delimiting encoding of a natural number: `n` continuation
bytes (255) followed by a terminator byte (0). -/
def encNat : Nat → Bytes
  | 0 => [0]
  | n + 1 => 255 :: encNat n

/-- Decoder for `encNat`, returning the value and the unconsumed tail. -/
def decNat : Bytes → Option (Nat × Bytes)
  | [] => none
  | 0 :: r => some (0, r)
  | 255 :: r =>
    match decNat r with
    | some (n, r2) => some (n + 1, r2)
    | none => none
  | _ :: _ => none

theorem decNat_encNat (n : Nat) (rest : Bytes) :
    decNat (encNat n ++ rest) = some (n, rest) := by
  induction n with
  | zero => rfl
  | succ m ih => simp [encNat, decNat, ih]

theorem decNat_sound : ∀ {l : Bytes} {n : Nat} {rest : Bytes},
    decNat l = some (n, rest) → l = encNat n ++ rest := by
  intro l
  induction l with
  | nil => intro n rest h; simp [decNat] at h
  | cons b r ih =>
    intro n rest h
    match b, h with
    | 0, h =>
      simp only [decNat, Option.some.injEq, Prod.mk.injEq] at h
      obtain ⟨rfl, rfl⟩ := h
      rfl
    | 255, h =>
      simp only [decNat] at h
      split at h
      · rename_i m r2 hm
        simp only [Option.some.injEq, Prod.mk.injEq] at h
        obtain ⟨rfl, rfl⟩ := h
        simpa [encNat] using ih hm
      · exact absurd h (by simp)

theorem length_encNat (n : Nat) : (encNat n).length = n + 1 := by
  induction n with
  | zero => rfl
  | succ m ih => simp [encNat, ih]

theorem encNat_injective {a b : Nat} (h : encNat a = encNat b) : a = b := by
  have ha := decNat_encNat a ([] : Bytes)
  have hb := decNat_encNat b ([] : Bytes)
  rw [h, hb] at ha
  simpa using ha.symm

/-- Length-prefixed encoding of a byte string. -/
def encBytes (b : Bytes) : Bytes := encNat b.length ++ b

/-- Decoder for `encBytes`, returning the field and the unconsumed tail. -/
def decBytes (l : Bytes) : Option (Bytes × Bytes) :=
  match decNat l with
  | some (n, r) => if n ≤ r.length then some (r.take n, r.drop n) else none
  | none => none

theorem decBytes_encBytes (b rest : Bytes) :
    decBytes (encBytes b ++ rest) = some (b, rest) := by
  simp only [decBytes, encBytes, List.append_assoc, decNat_encNat]
  rw [if_pos (by simp)]
  simp [List.take_left, List.drop_left]

theorem decBytes_sound {l b rest : Bytes} (h : decBytes l = some (b, rest)) :
    l = encBytes b ++ rest := by
  simp only [decBytes] at h
  split at h
  · rename_i n r hn
    split at h
    · rename_i hle
      simp only [Option.some.injEq, Prod.mk.injEq] at h
      obtain ⟨rfl, rfl⟩ := h
      have hr : r = r.take n ++ r.drop n := (List.take_append_drop n r).symm
      have hlen : (r.take n).length = n := by
        simp [List.length_take, Nat.min_eq_left hle]
      rw [decNat_sound hn, encBytes, hlen, List.append_assoc]
      exact congrArg (encNat n ++ ·) hr
    · exact absurd h (by simp)
  · exact absurd h (by simp)

theorem length_encBytes (b : Bytes) : (encBytes b).length = b.length + b.length + 1 := by
  simp [encBytes, length_encNat]
  omega

theorem encBytes_injective {a b : Bytes} (h : encBytes a = encBytes b) : a = b := by
  have ha := decBytes_encBytes a ([] : Bytes)
  have hb := decBytes_encBytes b ([] : Bytes)
  rw [h, hb] at ha
  simpa using ha.symm

/-! ## URL-safe base64

`keygen` renders the derived key with the Python `base64.urlsafe_b64encode`
and the Fernet constructor rejects any key text that is not the URL-safe
base64 encoding of exactly 32 bytes.  The encoding is implemented
concretely (RFC 4648 with the `-` / `_` alphabet). -/

/-- The URL-safe base64 alphabet: sextet index to character. -/
def b64Char (n : Nat) : Char :=
  if n < 26 then Char.ofNat (65 + n)
  else if n < 52 then Char.ofNat (97 + (n - 26))
  else if n < 62 then Char.ofNat (48 + (n - 52))
  else if n = 62 then Char.ofNat 45
  else Char.ofNat 95

/-- Inverse of `b64Char`: character to sextet index, `none` off-alphabet. -/
def b64CharDec (c : Char) : Option Nat :=
  if 65 ≤ c.toNat ∧ c.toNat ≤ 90 then some (c.toNat - 65)
  else if 97 ≤ c.toNat ∧ c.toNat ≤ 122 then some (c.toNat - 97 + 26)
  else if 48 ≤ c.toNat ∧ c.toNat ≤ 57 then some (c.toNat - 48 + 52)
  else if c.toNat = 45 then some 62
  else if c.toNat = 95 then some 63
  else none

theorem b64CharDec_b64Char : ∀ s, s < 64 → b64CharDec (b64Char s) = some s := by decide

theorem b64Char_ne_pad : ∀ s, s < 64 → b64Char s ≠ '=' := by decide

theorem b64Char_b64CharDec {c : Char} {s : Nat} (h : b64CharDec c = some s) :
    s < 64 ∧ b64Char s = c := by
  simp only [b64CharDec] at h
  split_ifs at h with h1 h2 h3 h4 h5 <;>
    simp only [Option.some.injEq] at h <;> subst h
  · refine ⟨by omega, ?_⟩
    rw [b64Char, if_pos (by omega)]
    rw [show 65 + (c.toNat - 65) = c.toNat by omega]
    exact Char.ofNat_toNat c
  · refine ⟨by omega, ?_⟩
    rw [b64Char, if_neg (by omega), if_pos (by omega)]
    rw [show 97 + (c.toNat - 97 + 26 - 26) = c.toNat by omega]
    exact Char.ofNat_toNat c
  · refine ⟨by omega, ?_⟩
    rw [b64Char, if_neg (by omega), if_neg (by omega), if_pos (by omega)]
    rw [show 48 + (c.toNat - 48 + 52 - 52) = c.toNat by omega]
    exact Char.ofNat_toNat c
  · refine ⟨by omega, ?_⟩
    rw [b64Char, if_neg (by omega), if_neg (by omega), if_neg (by omega), if_pos rfl]
    rw [show (45 : Nat) = c.toNat from h4.symm]
    exact Char.ofNat_toNat c
  · refine ⟨by omega, ?_⟩
    rw [b64Char, if_neg (by omega), if_neg (by omega), if_neg (by omega),
      if_neg (by omega)]
    rw [show (95 : Nat) = c.toNat from h5.symm]
    exact Char.ofNat_toNat c

/-- Model of `base64.urlsafe_b64encode` on a list of bytes. -/
def b64encode : Bytes → List Char
  | [] => []
  | [a] => [b64Char (a / 4), b64Char (a % 4 * 16), '=', '=']
  | [a, b] => [b64Char (a / 4), b64Char (a % 4 * 16 + b / 16), b64Char (b % 16 * 4), '=']
  | a :: b :: c :: rest =>
    b64Char (a / 4) :: b64Char (a % 4 * 16 + b / 16) :: b64Char (b % 16 * 4 + c / 64)
      :: b64Char (c % 64) :: b64encode rest

/-- Model of `base64.urlsafe_b64decode` (strict: rejects off-alphabet
characters, misplaced padding and non-zero trailing bits). -/
def b64decode : List Char → Option Bytes
  | [] => some []
  | c1 :: c2 :: c3 :: c4 :: rest =>
    match b64CharDec c1, b64CharDec c2 with
    | some s1, some s2 =>
      if c3 = '=' then
        if c4 = '=' ∧ rest = [] ∧ s2 % 16 = 0 then some [s1 * 4 + s2 / 16] else none
      else
        match b64CharDec c3 with
        | some s3 =>
          if c4 = '=' then
            if rest = [] ∧ s3 % 4 = 0 then
              some [s1 * 4 + s2 / 16, s2 % 16 * 16 + s3 / 4]
            else none
          else
            match b64CharDec c4 with
            | some s4 =>
              match b64decode rest with
              | some bs =>
                some ((s1 * 4 + s2 / 16) :: (s2 % 16 * 16 + s3 / 4)
                  :: (s3 % 4 * 64 + s4) :: bs)
              | none => none
            | none => none
        | none => none
    | _, _ => none
  | _ => none

theorem b64decode_b64encode {l : Bytes} (hl : ∀ b ∈ l, b < 256) :
    b64decode (b64encode l) = some l := by
  induction l using b64encode.induct with
  | case1 => rfl
  | case2 a =>
    have ha : a < 256 := hl a (by simp)
    have e1 := b64CharDec_b64Char (a / 4) (by omega)
    have e2 := b64CharDec_b64Char (a % 4 * 16) (by omega)
    have h16 : a % 4 * 16 % 16 = 0 := by omega
    have hval : a / 4 * 4 + a % 4 * 16 / 16 = a := by omega
    simp [b64encode, b64decode, e1, e2, h16, hval]
    omega
  | case3 a b =>
    have ha : a < 256 := hl a (by simp)
    have hb : b < 256 := hl b (by simp)
    have e1 := b64CharDec_b64Char (a / 4) (by omega)
    have e2 := b64CharDec_b64Char (a % 4 * 16 + b / 16) (by omega)
    have e3 := b64CharDec_b64Char (b % 16 * 4) (by omega)
    have hne3 := b64Char_ne_pad (b % 16 * 4) (by omega)
    have h4 : b % 16 * 4 % 4 = 0 := by omega
    have hv1 : a / 4 * 4 + (a % 4 * 16 + b / 16) / 16 = a := by omega
    have hv2 : (a % 4 * 16 + b / 16) % 16 * 16 + b % 16 * 4 / 4 = b := by omega
    simp [b64encode, b64decode, e1, e2, e3, hne3, h4, hv1, hv2]
    omega
  | case4 a b c rest ih =>
    have ha : a < 256 := hl a (by simp)
    have hb : b < 256 := hl b (by simp)
    have hc : c < 256 := hl c (by simp)
    have hrest : ∀ x ∈ rest, x < 256 := fun x hx => hl x (by simp [hx])
    have e1 := b64CharDec_b64Char (a / 4) (by omega)
    have e2 := b64CharDec_b64Char (a % 4 * 16 + b / 16) (by omega)
    have e3 := b64CharDec_b64Char (b % 16 * 4 + c / 64) (by omega)
    have e4 := b64CharDec_b64Char (c % 64) (by omega)
    have hne3 := b64Char_ne_pad (b % 16 * 4 + c / 64) (by omega)
    have hne4 := b64Char_ne_pad (c % 64) (by omega)
    have hv1 : a / 4 * 4 + (a % 4 * 16 + b / 16) / 16 = a := by omega
    have hv2 : (a % 4 * 16 + b / 16) % 16 * 16 + (b % 16 * 4 + c / 64) / 4 = b := by omega
    have hv3 : (b % 16 * 4 + c / 64) % 4 * 64 + c % 64 = c := by omega
    simp [b64encode, b64decode, e1, e2, e3, e4, hne3, hne4, hv1, hv2, hv3, ih hrest]

theorem b64decode_sound_bound (l : List Char) {bs : Bytes}
    (h : b64decode l = some bs) : b64encode bs = l ∧ ∀ x ∈ bs, x < 256 := by
  match l with
  | [] =>
    simp only [b64decode, Option.some.injEq] at h
    subst h
    exact ⟨rfl, by simp⟩
  | [c1] => simp [show b64decode [c1] = none from rfl] at h
  | [c1, c2] => simp [show b64decode [c1, c2] = none from rfl] at h
  | [c1, c2, c3] => simp [show b64decode [c1, c2, c3] = none from rfl] at h
  | c1 :: c2 :: c3 :: c4 :: rest =>
    simp only [b64decode] at h
    split at h
    case _ s1 s2 hd1 hd2 =>
      obtain ⟨hb1, he1⟩ := b64Char_b64CharDec hd1
      obtain ⟨hb2, he2⟩ := b64Char_b64CharDec hd2
      split at h
      case isTrue hc3 =>
        split at h
        case isTrue hcond =>
          obtain ⟨hc4, hrest, hs2m⟩ := hcond
          simp only [Option.some.injEq] at h
          subst h
          subst hc3
          subst hc4
          subst hrest
          constructor
          · rw [b64encode]
            have h1 : (s1 * 4 + s2 / 16) / 4 = s1 := by omega
            have h2 : (s1 * 4 + s2 / 16) % 4 * 16 = s2 := by omega
            rw [h1, h2, he1, he2]
          · intro x hx
            simp only [List.mem_singleton] at hx
            omega
        case isFalse => exact absurd h (by simp)
      case isFalse hc3 =>
        split at h
        case _ s3 hd3 =>
          obtain ⟨hb3, he3⟩ := b64Char_b64CharDec hd3
          split at h
          case isTrue hc4 =>
            split at h
            case isTrue hcond =>
              obtain ⟨hrest, hs3m⟩ := hcond
              simp only [Option.some.injEq] at h
              subst h
              subst hc4
              subst hrest
              constructor
              · rw [b64encode]
                have h1 : (s1 * 4 + s2 / 16) / 4 = s1 := by omega
                have h2 : (s1 * 4 + s2 / 16) % 4 * 16 + (s2 % 16 * 16 + s3 / 4) / 16 = s2 := by
                  omega
                have h3 : (s2 % 16 * 16 + s3 / 4) % 16 * 4 = s3 := by omega
                rw [h1, h2, h3, he1, he2, he3]
              · intro x hx
                simp only [List.mem_cons, List.not_mem_nil, or_false] at hx
                rcases hx with rfl | rfl
                · omega
                · omega
            case isFalse => exact absurd h (by simp)
          case isFalse hc4 =>
            split at h
            case _ s4 hd4 =>
              obtain ⟨hb4, he4⟩ := b64Char_b64CharDec hd4
              split at h
              case _ bs0 hbs0 =>
                simp only [Option.some.injEq] at h
                subst h
                obtain ⟨henc0, hbound0⟩ := b64decode_sound_bound rest hbs0
                constructor
                · rw [b64encode]
                  have h1 : (s1 * 4 + s2 / 16) / 4 = s1 := by omega
                  have h2 : (s1 * 4 + s2 / 16) % 4 * 16 + (s2 % 16 * 16 + s3 / 4) / 16 = s2 := by
                    omega
                  have h3 : (s2 % 16 * 16 + s3 / 4) % 16 * 4 + (s3 % 4 * 64 + s4) / 64 = s3 := by
                    omega
                  have h4 : (s3 % 4 * 64 + s4) % 64 = s4 := by omega
                  rw [h1, h2, h3, h4, he1, he2, he3, he4, henc0]
                · intro x hx
                  simp only [List.mem_cons] at hx
                  rcases hx with rfl | rfl | rfl | hx
                  · omega
                  · omega
                  · omega
                  · exact hbound0 x hx
              case _ => exact absurd h (by simp)
            case _ => exact absurd h (by simp)
        case _ => exact absurd h (by simp)
    case _ => exact absurd h (by simp)

/-- Text-level URL-safe base64 encoding, as `keygen` produces it
(`urlsafe_b64encode(...).decode()`). -/
def b64encodeText (l : Bytes) : String := String.mk (b64encode l)

/-- Text-level URL-safe base64 decoding. -/
def b64decodeText (s : String) : Option Bytes := b64decode s.data

theorem b64decodeText_b64encodeText {l : Bytes} (hl : ∀ b ∈ l, b < 256) :
    b64decodeText (b64encodeText l) = some l := b64decode_b64encode hl

theorem b64decodeText_inj {s t : String} {bs : Bytes}
    (hs : b64decodeText s = some bs) (ht : b64decodeText t = some bs) : s = t := by
  apply String.ext
  rw [← (b64decode_sound_bound s.data hs).1, ← (b64decode_sound_bound t.data ht).1]

/-! ## Symbolic Fernet model

The `cryptography.fernet.Fernet` primitive is external to the repository.
It is modelled symbolically (Dolev-Yao style) but executably: a token is
a parseable wire encoding of a version header, a timestamp, a single-use
initialization value and the payload, followed by an authentication tag
that binds the key to the whole body.  The model reflects exactly the
contract the spec states for the primitive: decryption with the right
key recovers the payload, and decryption fails verifiably if the key is
wrong or the token was modified.  The timestamp and initialization value
that the real primitive draws per call appear as explicit arguments. -/

/-- Token body: version header byte, timestamp, initialization value,
payload. -/
def fernetBody (ts : Nat) (iv msg : Bytes) : Bytes :=
  128 :: (encNat ts ++ (encBytes iv ++ encBytes msg))

/-- Symbolic authentication tag over the token body, keyed: a perfect
MAC, injective in the pair of key and body. -/
def fernetTag (key body : Bytes) : Bytes := encBytes key ++ encBytes body

/-- Model of `Fernet.encrypt`: the token is the body followed by its
tag.  `ts` and `iv` stand for the timestamp and the fresh single-use
initialization value the real primitive draws on every call. -/
def fernetEnc (key : Bytes) (ts : Nat) (iv msg : Bytes) : Bytes :=
  fernetBody ts iv msg ++ fernetTag key (fernetBody ts iv msg)

/-- Model of `Fernet.decrypt`: parse header, timestamp, initialization
value and payload, then verify the tag; any failure models the
`InvalidToken` exception. -/
def fernetDec (key : Bytes) (t : Bytes) : Option Bytes :=
  match t with
  | [] => none
  | b :: r =>
    if b = 128 then
      match decNat r with
      | some (ts, r1) =>
        match decBytes r1 with
        | some (iv, r2) =>
          match decBytes r2 with
          | some (msg, r3) =>
            if r3 = fernetTag key (fernetBody ts iv msg) then some msg else none
          | none => none
        | none => none
      | none => none
    else none

/-- Model of the `Fernet(key.encode())` constructor: accepts exactly the
URL-safe base64 encodings of 32 raw bytes and raises on anything else. -/
def fernetInit (key : String) : Option Bytes :=
  match b64decodeText key with
  | some raw => if raw.length = 32 then some raw else none
  | none => none

theorem fernetDec_fernetEnc (key : Bytes) (ts : Nat) (iv msg : Bytes) :
    fernetDec key (fernetEnc key ts iv msg) = some msg := by
  simp [fernetEnc, fernetDec, fernetBody, fernetTag, decNat_encNat, decBytes_encBytes,
    List.append_assoc]

theorem fernetDec_sound {key t msg : Bytes} (h : fernetDec key t = some msg) :
    ∃ ts iv, t = fernetEnc key ts iv msg := by
  match t with
  | [] => exact absurd h (by simp [fernetDec])
  | b :: r =>
    simp only [fernetDec] at h
    split at h
    case isTrue hb =>
      split at h
      case _ ts r1 hts =>
        split at h
        case _ iv r2 hiv =>
          split at h
          case _ msg0 r3 hmsg =>
            split at h
            case isTrue htag =>
              simp only [Option.some.injEq] at h
              subst h
              refine ⟨ts, iv, ?_⟩
              subst hb
              rw [decNat_sound hts, decBytes_sound hiv, decBytes_sound hmsg, htag]
              simp [fernetEnc, fernetBody, List.append_assoc]
            case isFalse => exact absurd h (by simp)
          case _ => exact absurd h (by simp)
        case _ => exact absurd h (by simp)
      case _ => exact absurd h (by simp)
    case isFalse => exact absurd h (by simp)

theorem fernetTag_key_inj {key1 key2 body : Bytes} (hlen : key1.length = key2.length)
    (h : fernetTag key1 body = fernetTag key2 body) : key1 = key2 := by
  have hlb : (encBytes key1).length = (encBytes key2).length := by
    rw [length_encBytes, length_encBytes, hlen]
  exact encBytes_injective (List.append_inj_left h hlb)

theorem fernetDec_wrong_key {key1 key2 : Bytes} (hlen : key1.length = key2.length)
    (hne : key1 ≠ key2) (ts : Nat) (iv msg : Bytes) :
    fernetDec key2 (fernetEnc key1 ts iv msg) = none := by
  have hparse : fernetDec key2 (fernetEnc key1 ts iv msg) =
      if fernetTag key1 (fernetBody ts iv msg) =
          fernetTag key2 (fernetBody ts iv msg) then
        some msg
      else none := by
    simp [fernetEnc, fernetDec, fernetBody, fernetTag, decNat_encNat, decBytes_encBytes,
      List.append_assoc]
  rw [hparse, if_neg]
  intro heq
  exact hne (fernetTag_key_inj hlen heq)

/-- Flip the byte at position `i`: replace it with its complement
(bitwise xor with 255), the identity elsewhere. -/
def flipAt (i : Nat) (l : Bytes) : Bytes := l.set i (l.getD i 0 ^^^ 255)

theorem xor255_ne (x : Nat) : x ^^^ 255 ≠ x := by
  intro h
  have h2 : x ^^^ (x ^^^ 255) = x ^^^ x := by rw [h]
  rw [← Nat.xor_assoc, Nat.xor_self, Nat.zero_xor] at h2
  exact absurd h2 (by omega)

theorem exists_getElem_ne {l1 l2 : Bytes} (h : l1 ≠ l2) : ∃ p : Nat, l1[p]? ≠ l2[p]? := by
  by_contra hc
  push_neg at hc
  exact h (List.ext_getElem? hc)

theorem length_fernetEnc (key : Bytes) (ts : Nat) (iv msg : Bytes) :
    (fernetEnc key ts iv msg).length =
      3 * (fernetBody ts iv msg).length + (encBytes key).length + 1 := by
  simp [fernetEnc, fernetTag, length_encBytes]
  omega

/-- Tampering lemma: flipping any single byte of a well-formed token
makes decryption fail.  Two distinct valid tokens under the same key
always differ at two positions at least (the body and the tag both
commit to the content), so a one-byte change can never reach another
valid token. -/
theorem fernetDec_flipAt (key : Bytes) (ts : Nat) (iv msg : Bytes) {i : Nat}
    (hi : i < (fernetEnc key ts iv msg).length) :
    fernetDec key (flipAt i (fernetEnc key ts iv msg)) = none := by
  set t := fernetEnc key ts iv msg with ht
  cases hdec : fernetDec key (flipAt i t) with
  | none => rfl
  | some m =>
    exfalso
    obtain ⟨ts2, iv2, hteq⟩ := fernetDec_sound hdec
    set B := fernetBody ts iv msg with hB
    set B2 := fernetBody ts2 iv2 m with hB2
    have hlen : (flipAt i t).length = t.length := List.length_set t i _
    have hlenB : B2.length = B.length := by
      have h1 : t.length = 3 * B.length + (encBytes key).length + 1 :=
        length_fernetEnc key ts iv msg
      have h2 : (flipAt i t).length = 3 * B2.length + (encBytes key).length + 1 := by
        rw [hteq]
        exact length_fernetEnc key ts2 iv2 m
      omega
    have hflip_i : (flipAt i t)[i]? ≠ t[i]? := by
      rw [flipAt, List.getElem?_set_self hi, List.getElem?_eq_getElem hi]
      intro hcontra
      simp only [Option.some.injEq] at hcontra
      have hgd : t.getD i 0 = t[i] := List.getD_eq_getElem t 0 hi
      rw [hgd] at hcontra
      exact xor255_ne _ hcontra
    have hflip_ne : ∀ j, j ≠ i → (flipAt i t)[j]? = t[j]? := by
      intro j hj
      exact List.getElem?_set_ne (fun hh => hj hh.symm)
    by_cases hBeq : B2 = B
    · have : flipAt i t = t := by
        rw [hteq, ht]
        simp only [fernetEnc, ← hB, ← hB2, hBeq]
      rw [this] at hflip_i
      exact hflip_i rfl
    · obtain ⟨p, hp⟩ := exists_getElem_ne hBeq
      have hplt : p < B.length := by
        by_contra hge
        push_neg at hge
        have h1 : B2[p]? = none := List.getElem?_eq_none (by omega)
        have h2 : B[p]? = none := List.getElem?_eq_none hge
        rw [h1, h2] at hp
        exact hp rfl
      have htp : t[p]? = B[p]? := by
        rw [ht]
        show (fernetEnc key ts iv msg)[p]? = B[p]?
        rw [fernetEnc, ← hB, List.getElem?_append, if_pos hplt]
      have htp2 : (flipAt i t)[p]? = B2[p]? := by
        rw [hteq]
        show (fernetEnc key ts2 iv2 m)[p]? = B2[p]?
        rw [fernetEnc, ← hB2, List.getElem?_append, if_pos (by omega)]
      have hpi : p = i := by
        by_contra hpne
        rw [hflip_ne p hpne, htp] at htp2
        exact hp htp2.symm
      obtain ⟨q, hq⟩ := exists_getElem_ne
        (fun hh => hBeq (encBytes_injective hh) : encBytes B2 ≠ encBytes B)
      have hqlt : q < (encBytes B).length := by
        by_contra hge
        push_neg at hge
        have hlenEB : (encBytes B2).length = (encBytes B).length := by
          rw [length_encBytes, length_encBytes, hlenB]
        have h1 : (encBytes B2)[q]? = none := List.getElem?_eq_none (by omega)
        have h2 : (encBytes B)[q]? = none := List.getElem?_eq_none hge
        rw [h1, h2] at hq
        exact hq rfl
      set j := B.length + (encBytes key).length + q with hj
      have htj : t[j]? = (encBytes B)[q]? := by
        rw [ht]
        show (fernetEnc key ts iv msg)[j]? = (encBytes B)[q]?
        rw [fernetEnc, fernetTag, ← hB, ← List.append_assoc]
        rw [List.getElem?_append_right (by simp only [List.length_append]; omega)]
        congr 1
        simp only [List.length_append]
        omega
      have htj2 : (flipAt i t)[j]? = (encBytes B2)[q]? := by
        rw [hteq]
        show (fernetEnc key ts2 iv2 m)[j]? = (encBytes B2)[q]?
        rw [fernetEnc, fernetTag, ← hB2, ← List.append_assoc]
        rw [List.getElem?_append_right (by simp only [List.length_append]; omega)]
        congr 1
        simp only [List.length_append]
        omega
      have hji : j = i := by
        by_contra hjne
        rw [hflip_ne j hjne, htj] at htj2
        exact hq htj2.symm
      omega

/-! ## Key-derivation model -/

/-- Executable symbolic stand-in for the external
`PBKDF2HMAC(algorithm=SHA512(), length=32, salt=..., iterations=100000)`
derivation, applied to the encoded passphrase.  Only two facts about the
real primitive are relied on by any theorem below: it is a function of
the password and the salt, and its output is exactly 32 raw bytes. -/
def pbkdf2Sha512 (password salt : Bytes) : Bytes :=
  (List.range 32).map (fun i => (password.sum * 7 + salt.sum * 13 + i * 31 + 100000) % 256)

theorem length_pbkdf2Sha512 (password salt : Bytes) :
    (pbkdf2Sha512 password salt).length = 32 := by
  simp [pbkdf2Sha512]

theorem pbkdf2Sha512_lt (password salt : Bytes) :
    ∀ b ∈ pbkdf2Sha512 password salt, b < 256 := by
  intro b hb
  simp only [pbkdf2Sha512, List.mem_map] at hb
  obtain ⟨i, -, rfl⟩ := hb
  omega

/-! ## The repository functions

Line-by-line embedding of `keygen`, `encrypt` and `decrypt` from
`src/utils/assists/cipher.py`.  Each function body inside the `try`
is embedded as a `...Body` function returning `Except PyError`; the
function itself wraps the body exactly as the `try/except` does: an
exception becomes a printed diagnostic line plus an absent result. -/

/-- Constant `_ENCODING` holding the default utf-8 encoding name. -/
def _ENCODING : String := "utf-8"

/-- Constant `_KEY_NAME`, the default key name `ADMIN_USER_KEY` used
when no key name is given. -/
def _KEY_NAME : String := "ADMIN_USER_KEY"

/-- The exceptions the modelled externals can raise inside the try
blocks: `ValueError` from the `Fernet` constructor on a malformed key,
`InvalidToken` from `Fernet.decrypt`, `UnicodeDecodeError` from
`bytes.decode`. -/
inductive PyError where
  | invalidKey
  | invalidToken
  | unicodeError
  deriving DecidableEq

/-- The diagnostic line the `except` blocks print through the
error-reporting collaborator. -/
def errorReport (fname : String) : String :=
  "An error occured while performing this operation in function " ++ fname

/-- Observable outcome of a `keygen` call: the value returned to the
caller, the `(name, key)` pair handed to the key-storage collaborator
(`Popen("setx {key_name} {key}")`), and the diagnostics printed. -/
structure KeygenResult where
  returned : Option String
  storedName : String
  storedValue : String
  reports : List String
  deriving DecidableEq

/-- `keygen(key_name, passcode, return_key=None)`: derive a key from
`passcode` with PBKDF2 over a fresh 128-byte salt, store it under
`key_name` (defaulting to `_KEY_NAME` when `key_name is None`), and
return it only when `return_key is True`.  The salt that `urandom(128)`
draws inside the call is an explicit argument of the model. -/
def keygen (key_name : Option String) (passcode : String) (return_key : Option Bool)
    (salt : Bytes) : KeygenResult :=
  let password := strEncode passcode
  let key := b64encodeText (pbkdf2Sha512 password salt)
  let name := match key_name with
    | none => _KEY_NAME
    | some s => s
  { returned := if return_key = some true then some key else none
  , storedName := name
  , storedValue := key
  , reports := [] }

/-- Body of `encrypt(message, key)` inside the `try`: encode the
message, build the Fernet object from `key`, encrypt, encrypt the
result again, decode the final bytes to text.  The timestamps and
initialization values the primitive draws for the two layers are
explicit arguments of the model. -/
def encryptBody (message key : String) (ts1 : Nat) (iv1 : Bytes) (ts2 : Nat)
    (iv2 : Bytes) : Except PyError String :=
  let to_encode := strEncode message
  match fernetInit key with
  | none => .error .invalidKey
  | some fernet_key =>
    let encode := fernetEnc fernet_key ts1 iv1 to_encode
    let super_encode := fernetEnc fernet_key ts2 iv2 encode
    match strDecode super_encode with
    | none => .error .unicodeError
    | some out => .ok out

/-- `encrypt(message, key)`: the try body with the `except` clause
wrapped around it — an exception is reported and turns into an absent
result. -/
def encrypt (message key : String) (ts1 : Nat) (iv1 : Bytes) (ts2 : Nat)
    (iv2 : Bytes) : Option String × List String :=
  match encryptBody message key ts1 iv1 ts2 iv2 with
  | .ok out => (some out, [])
  | .error _ => (none, [errorReport "encrypt"])

/-- Body of `decrypt(encrypted_text, key)` inside the `try`: build the
Fernet object from `key`, decrypt the encoded input (removing the outer
layer), decrypt the result again (removing the inner layer), decode the
recovered bytes to text. -/
def decryptBody (encrypted_text key : String) : Except PyError String :=
  match fernetInit key with
  | none => .error .invalidKey
  | some fernet_key =>
    match fernetDec fernet_key (strEncode encrypted_text) with
    | none => .error .invalidToken
    | some decode =>
      match fernetDec fernet_key decode with
      | none => .error .invalidToken
      | some super_decode =>
        match strDecode super_decode with
        | none => .error .unicodeError
        | some out => .ok out

/-- `decrypt(encrypted_text, key)`: the try body with the `except`
clause wrapped around it. -/
def decrypt (encrypted_text key : String) : Option String × List String :=
  match decryptBody encrypted_text key with
  | .ok out => (some out, [])
  | .error _ => (none, [errorReport "decrypt"])

/-! ## Supporting lemmas about the embedded functions -/

theorem lt256_isValidChar {v : Nat} (h : v < 256) : Nat.isValidChar v :=
  Or.inl (by omega)

theorem mem_encNat {n v : Nat} (hv : v ∈ encNat n) : v = 0 ∨ v = 255 := by
  induction n with
  | zero => simp [encNat] at hv; omega
  | succ m ih =>
    simp only [encNat, List.mem_cons] at hv
    rcases hv with rfl | hv
    · right; rfl
    · exact ih hv

theorem mem_encBytes {b : Bytes} {v : Nat} (hv : v ∈ encBytes b) :
    v = 0 ∨ v = 255 ∨ v ∈ b := by
  simp only [encBytes, List.mem_append] at hv
  rcases hv with hv | hv
  · rcases mem_encNat hv with rfl | rfl
    · exact Or.inl rfl
    · exact Or.inr (Or.inl rfl)
  · exact Or.inr (Or.inr hv)

theorem valid_fernetBody {iv msg : Bytes} (hiv : ∀ v ∈ iv, v < 256)
    (hmsg : ∀ v ∈ msg, Nat.isValidChar v) (ts : Nat) :
    ∀ v ∈ fernetBody ts iv msg, Nat.isValidChar v := by
  intro v hv
  simp only [fernetBody, List.mem_cons, List.mem_append] at hv
  rcases hv with rfl | hv | hv | hv
  · exact lt256_isValidChar (by omega)
  · rcases mem_encNat hv with rfl | rfl
    · exact lt256_isValidChar (by omega)
    · exact lt256_isValidChar (by omega)
  · rcases mem_encBytes hv with rfl | rfl | hv
    · exact lt256_isValidChar (by omega)
    · exact lt256_isValidChar (by omega)
    · exact lt256_isValidChar (hiv v hv)
  · rcases mem_encBytes hv with rfl | rfl | hv
    · exact lt256_isValidChar (by omega)
    · exact lt256_isValidChar (by omega)
    · exact hmsg v hv

theorem valid_fernetEnc {key iv msg : Bytes} (hkey : ∀ v ∈ key, v < 256)
    (hiv : ∀ v ∈ iv, v < 256) (hmsg : ∀ v ∈ msg, Nat.isValidChar v) (ts : Nat) :
    ∀ v ∈ fernetEnc key ts iv msg, Nat.isValidChar v := by
  intro v hv
  simp only [fernetEnc, fernetTag, List.mem_append] at hv
  rcases hv with hv | hv | hv
  · exact valid_fernetBody hiv hmsg ts v hv
  · rcases mem_encBytes hv with rfl | rfl | hv
    · exact lt256_isValidChar (by omega)
    · exact lt256_isValidChar (by omega)
    · exact lt256_isValidChar (hkey v hv)
  · rcases mem_encBytes hv with rfl | rfl | hv
    · exact lt256_isValidChar (by omega)
    · exact lt256_isValidChar (by omega)
    · exact valid_fernetBody hiv hmsg ts v hv

theorem valid_strEncode (s : String) : ∀ v ∈ strEncode s, Nat.isValidChar v := by
  intro v hv
  simp only [strEncode, List.mem_map] at hv
  obtain ⟨c, -, rfl⟩ := hv
  exact c.valid

theorem strDecode_of_valid {l : Bytes} (h : ∀ v ∈ l, Nat.isValidChar v) :
    ∃ s, strDecode l = some s ∧ strEncode s = l := by
  simp only [strDecode, if_pos h]
  exact ⟨_, rfl, strEncode_strDecode (by simp only [strDecode, if_pos h])⟩

theorem fernetInit_some {key : String} {raw : Bytes} (h : fernetInit key = some raw) :
    b64decodeText key = some raw ∧ raw.length = 32 ∧ ∀ v ∈ raw, v < 256 := by
  simp only [fernetInit] at h
  split at h
  · rename_i raw0 hdec
    split at h
    · rename_i hlen
      simp only [Option.some.injEq] at h
      subst h
      exact ⟨hdec, hlen, (b64decode_sound_bound key.data hdec).2⟩
    · exact absurd h (by simp)
  · exact absurd h (by simp)

/-- The `encrypt` body on a well-formed key: both layers are produced
and the final text decodes to it. -/
theorem encryptBody_ok (message : String) {key : String} {raw : Bytes}
    (hkey : fernetInit key = some raw)
    (ts1 ts2 : Nat) {iv1 iv2 : Bytes}
    (hiv1 : ∀ v ∈ iv1, v < 256) (hiv2 : ∀ v ∈ iv2, v < 256) :
    ∃ c, encryptBody message key ts1 iv1 ts2 iv2 = .ok c ∧
      strEncode c = fernetEnc raw ts2 iv2 (fernetEnc raw ts1 iv1 (strEncode message)) := by
  obtain ⟨-, -, hraw⟩ := fernetInit_some hkey
  have hvalid1 : ∀ v ∈ fernetEnc raw ts1 iv1 (strEncode message), Nat.isValidChar v :=
    valid_fernetEnc hraw hiv1 (valid_strEncode message) ts1
  have hvalid2 : ∀ v ∈ fernetEnc raw ts2 iv2 (fernetEnc raw ts1 iv1 (strEncode message)),
      Nat.isValidChar v :=
    valid_fernetEnc hraw hiv2 hvalid1 ts2
  obtain ⟨c, hdec, henc⟩ := strDecode_of_valid hvalid2
  refine ⟨c, ?_, henc⟩
  simp only [encryptBody, hkey, hdec]

/-! ## The claims -/

set_option maxRecDepth 200000

/-- Claim C1: for every plaintext message M (including the empty string)
and every valid derived key K, `decrypt(encrypt(M, K), K)` returns
exactly M.  The timestamps and initialization values the primitive draws
inside the two encryption layers are quantified explicitly. -/
theorem decrypt_encrypt_roundtrip (message key : String) (raw : Bytes)
    (ts1 ts2 : Nat) (iv1 iv2 : Bytes)
    (hkey : fernetInit key = some raw)
    (hiv1 : ∀ v ∈ iv1, v < 256) (hiv2 : ∀ v ∈ iv2, v < 256) :
    ((encrypt message key ts1 iv1 ts2 iv2).1.bind
      (fun c => (decrypt c key).1)) = some message := by
  obtain ⟨c, hbody, henc⟩ := encryptBody_ok message hkey ts1 ts2 hiv1 hiv2
  have hE : (encrypt message key ts1 iv1 ts2 iv2).1 = some c := by
    simp [encrypt, hbody]
  rw [hE]
  show (decrypt c key).1 = some message
  have hD : decryptBody c key = .ok message := by
    simp only [decryptBody, hkey, henc, fernetDec_fernetEnc, strDecode_strEncode]
  simp [decrypt, hD]

/-- Claim C1 witness: the all-zero 32-byte key in its URL-safe encoding
is a valid derived key, and the empty string round-trips through
encrypt/decrypt under it. -/
theorem decrypt_encrypt_roundtrip_witness :
    fernetInit (b64encodeText (List.replicate 32 0)) = some (List.replicate 32 0) ∧
    ((encrypt "" (b64encodeText (List.replicate 32 0)) 0 [] 0 []).1.bind
      (fun c => (decrypt c (b64encodeText (List.replicate 32 0))).1)) = some "" :=
  ⟨by decide,
   decrypt_encrypt_roundtrip "" (b64encodeText (List.replicate 32 0))
     (List.replicate 32 0) 0 0 [] [] (by decide) (by decide) (by decide)⟩

/-- Claim C2: `encrypt` applies the authenticated-encryption primitive
twice with the same key — layer 1 over the message bytes, layer 2 over
the layer-1 token — and returns the layer-2 output as text; `decrypt`
inverts this with that same key, removing the outer layer 2 first and
the inner layer 1 second, then decoding the recovered bytes. -/
theorem encrypt_decrypt_double_layer (key : String) (raw : Bytes)
    (hkey : fernetInit key = some raw) :
    (∀ (message : String) (ts1 ts2 : Nat) (iv1 iv2 : Bytes),
      (encrypt message key ts1 iv1 ts2 iv2).1 =
        strDecode (fernetEnc raw ts2 iv2 (fernetEnc raw ts1 iv1 (strEncode message)))) ∧
    (∀ c : String,
      (decrypt c key).1 =
        ((fernetDec raw (strEncode c)).bind
          (fun d => fernetDec raw d)).bind strDecode) := by
  constructor
  · intro message ts1 ts2 iv1 iv2
    cases hsd : strDecode (fernetEnc raw ts2 iv2 (fernetEnc raw ts1 iv1 (strEncode message))) with
    | none => simp [encrypt, encryptBody, hkey, hsd]
    | some out => simp [encrypt, encryptBody, hkey, hsd]
  · intro c
    cases h1 : fernetDec raw (strEncode c) with
    | none => simp [decrypt, decryptBody, hkey, h1]
    | some d =>
      cases h2 : fernetDec raw d with
      | none => simp [decrypt, decryptBody, hkey, h1, h2]
      | some d2 =>
        cases h3 : strDecode d2 with
        | none => simp [decrypt, decryptBody, hkey, h1, h2, h3]
        | some out => simp [decrypt, decryptBody, hkey, h1, h2, h3]

/-- Claim C2 witness: both layer equations instantiated at the all-zero
valid key, a concrete message and concrete layer inputs. -/
theorem encrypt_decrypt_double_layer_witness :
    (encrypt "ab" (b64encodeText (List.replicate 32 0)) 1 [7] 2 [9]).1 =
      strDecode (fernetEnc (List.replicate 32 0) 2 [9]
        (fernetEnc (List.replicate 32 0) 1 [7] (strEncode "ab"))) ∧
    (decrypt "xyz" (b64encodeText (List.replicate 32 0))).1 =
      ((fernetDec (List.replicate 32 0) (strEncode "xyz")).bind
        (fun d => fernetDec (List.replicate 32 0) d)).bind strDecode :=
  ⟨(encrypt_decrypt_double_layer (b64encodeText (List.replicate 32 0))
      (List.replicate 32 0) (by decide)).1 "ab" 1 2 [7] [9],
   (encrypt_decrypt_double_layer (b64encodeText (List.replicate 32 0))
      (List.replicate 32 0) (by decide)).2 "xyz"⟩

/-- Claim C3: for every valid non-empty passphrase and every label, the
derivation called with return_key=True returns a URL-safe-encoded text
value that decodes to exactly 32 raw bytes. -/
theorem keygen_returns_32_byte_key (key_name : Option String) (passcode : String)
    (salt : Bytes) (hp : passcode ≠ "") :
    ∃ k raw, (keygen key_name passcode (some true) salt).returned = some k ∧
      b64decodeText k = some raw ∧ raw.length = 32 := by
  refine ⟨b64encodeText (pbkdf2Sha512 (strEncode passcode) salt),
    pbkdf2Sha512 (strEncode passcode) salt, ?_, ?_, length_pbkdf2Sha512 _ _⟩
  · simp [keygen]
  · exact b64decodeText_b64encodeText (pbkdf2Sha512_lt _ _)

/-- Claim C3 witness: the concrete passphrase and label from the spec. -/
theorem keygen_returns_32_byte_key_witness :
    "correct horse battery staple" ≠ "" ∧
    ∃ k raw,
      (keygen (some "TEST_KEY") "correct horse battery staple" (some true) []).returned
          = some k ∧
        b64decodeText k = some raw ∧ raw.length = 32 :=
  ⟨by decide,
   keygen_returns_32_byte_key (some "TEST_KEY") "correct horse battery staple" []
     (by decide)⟩

/-- Claim C4: in each operation every failure of the body is caught at
the operation boundary, reported through the error-reporting
collaborator, and turned into an absent result, while a successful body
is returned with no report; no exception escapes to the caller (the
embedded operations are total functions into plain result pairs). -/
theorem operations_catch_report_return_none :
    (∀ (message key : String) (ts1 : Nat) (iv1 : Bytes) (ts2 : Nat) (iv2 : Bytes)
        (e : PyError),
      encryptBody message key ts1 iv1 ts2 iv2 = .error e →
        encrypt message key ts1 iv1 ts2 iv2 = (none, [errorReport "encrypt"])) ∧
    (∀ (message key : String) (ts1 : Nat) (iv1 : Bytes) (ts2 : Nat) (iv2 : Bytes)
        (v : String),
      encryptBody message key ts1 iv1 ts2 iv2 = .ok v →
        encrypt message key ts1 iv1 ts2 iv2 = (some v, [])) ∧
    (∀ (encrypted_text key : String) (e : PyError),
      decryptBody encrypted_text key = .error e →
        decrypt encrypted_text key = (none, [errorReport "decrypt"])) ∧
    (∀ (encrypted_text key : String) (v : String),
      decryptBody encrypted_text key = .ok v →
        decrypt encrypted_text key = (some v, [])) ∧
    (∀ (key_name : Option String) (passcode : String) (return_key : Option Bool)
        (salt : Bytes),
      (keygen key_name passcode return_key salt).reports = []) := by
  refine ⟨?_, ?_, ?_, ?_, ?_⟩
  · intro message key ts1 iv1 ts2 iv2 e h
    simp [encrypt, h]
  · intro message key ts1 iv1 ts2 iv2 v h
    simp [encrypt, h]
  · intro encrypted_text key e h
    simp [decrypt, h]
  · intro encrypted_text key v h
    simp [decrypt, h]
  · intro key_name passcode return_key salt
    rfl

/-- Claim C4 witness: a malformed key makes the encrypt body fail with
the key error, and the wrapped operation reports it and returns an
absent result; likewise for decrypt on garbage input; keygen never
reports. -/
theorem operations_catch_report_return_none_witness :
    encryptBody "m" "not-a-valid-key" 0 [] 0 [] = .error .invalidKey ∧
    encrypt "m" "not-a-valid-key" 0 [] 0 [] = (none, [errorReport "encrypt"]) ∧
    decryptBody "junk" "not-a-valid-key" = .error .invalidKey ∧
    decrypt "junk" "not-a-valid-key" = (none, [errorReport "decrypt"]) ∧
    (keygen none "p" none []).reports = [] :=
  ⟨rfl,
   operations_catch_report_return_none.1 "m" "not-a-valid-key" 0 [] 0 [] .invalidKey rfl,
   rfl,
   operations_catch_report_return_none.2.2.1 "junk" "not-a-valid-key" .invalidKey rfl,
   operations_catch_report_return_none.2.2.2.2 none "p" none []⟩

/-- Claim C5 counterexample: calling `keygen` with an empty (but
present) key label stores under the empty label itself, not under the
documented default `_KEY_NAME` — the code substitutes the default only
when the label is `None`. -/
theorem keygen_empty_label_counterexample :
    (keygen (some "") "hello" none []).storedName ≠ _KEY_NAME := by decide

/-- Claim C5 (amended): the documented default label is used for the
storage callback exactly when the supplied key label is absent (None);
any supplied label, the empty string included, is passed through
unchanged. -/
theorem keygen_default_label_on_none :
    (∀ (passcode : String) (return_key : Option Bool) (salt : Bytes),
      (keygen none passcode return_key salt).storedName = _KEY_NAME) ∧
    (∀ (lbl passcode : String) (return_key : Option Bool) (salt : Bytes),
      (keygen (some lbl) passcode return_key salt).storedName = lbl) :=
  ⟨fun _ _ _ => rfl, fun _ _ _ _ => rfl⟩

/-- Claim C6: on a successful derivation call, return_key=True returns
the encoded key (the very text handed to the storage collaborator), and
any other return_key value — False or None/unset — returns nothing. -/
theorem keygen_return_key_policy (key_name : Option String) (passcode : String)
    (salt : Bytes) :
    ((keygen key_name passcode (some true) salt).returned =
      some ((keygen key_name passcode (some true) salt).storedValue)) ∧
    (∀ return_key : Option Bool, return_key ≠ some true →
      (keygen key_name passcode return_key salt).returned = none) := by
  constructor
  · rfl
  · intro rk hrk
    simp [keygen, hrk]

/-- Claim C6 witness: return_key=True returns the stored key text;
return_key=None and return_key=False return nothing. -/
theorem keygen_return_key_policy_witness :
    ((keygen (some "L") "p" (some true) []).returned =
      some ((keygen (some "L") "p" (some true) []).storedValue)) ∧
    (keygen (some "L") "p" none []).returned = none ∧
    (keygen (some "L") "p" (some false) []).returned = none :=
  ⟨(keygen_return_key_policy (some "L") "p" []).1,
   (keygen_return_key_policy (some "L") "p" []).2 none (by decide),
   (keygen_return_key_policy (some "L") "p" []).2 (some false) (by decide)⟩

/-- Claim C7: a message encrypted under one valid derived key fails to
decrypt under any different valid derived key — the result is absent. -/
theorem decrypt_wrong_key_fails (message key1 key2 : String) (raw1 raw2 : Bytes)
    (ts1 ts2 : Nat) (iv1 iv2 : Bytes) (c : String)
    (hkey1 : fernetInit key1 = some raw1) (hkey2 : fernetInit key2 = some raw2)
    (hne : key1 ≠ key2)
    (hiv1 : ∀ v ∈ iv1, v < 256) (hiv2 : ∀ v ∈ iv2, v < 256)
    (hc : (encrypt message key1 ts1 iv1 ts2 iv2).1 = some c) :
    (decrypt c key2).1 = none := by
  obtain ⟨c0, hbody, henc⟩ := encryptBody_ok message hkey1 ts1 ts2 hiv1 hiv2
  have hE : (encrypt message key1 ts1 iv1 ts2 iv2).1 = some c0 := by
    simp [encrypt, hbody]
  rw [hE] at hc
  simp only [Option.some.injEq] at hc
  subst hc
  have hrawne : raw1 ≠ raw2 := by
    intro hr
    subst hr
    exact hne (b64decodeText_inj (fernetInit_some hkey1).1 (fernetInit_some hkey2).1)
  have hlen : raw1.length = raw2.length := by
    rw [(fernetInit_some hkey1).2.1, (fernetInit_some hkey2).2.1]
  have hdec : fernetDec raw2 (strEncode c0) = none := by
    rw [henc]
    exact fernetDec_wrong_key hlen hrawne ts2 iv2 _
  simp [decrypt, decryptBody, hkey2, hdec]

/-- Claim C7 witness: the all-zero and all-one 32-byte keys are both
valid and distinct, and a ciphertext produced under the first fails to
decrypt under the second. -/
theorem decrypt_wrong_key_fails_witness :
    (encrypt "" (b64encodeText (List.replicate 32 0)) 0 [] 0 []).1 =
      some ((encrypt "" (b64encodeText (List.replicate 32 0)) 0 [] 0 []).1.getD "") ∧
    (decrypt ((encrypt "" (b64encodeText (List.replicate 32 0)) 0 [] 0 []).1.getD "")
      (b64encodeText (List.replicate 32 1))).1 = none :=
  ⟨by decide,
   decrypt_wrong_key_fails "" (b64encodeText (List.replicate 32 0))
     (b64encodeText (List.replicate 32 1)) (List.replicate 32 0) (List.replicate 32 1)
     0 0 [] [] ((encrypt "" (b64encodeText (List.replicate 32 0)) 0 [] 0 []).1.getD "")
     (by decide) (by decide) (by decide) (by decide) (by decide) (by decide)⟩

/-- Claim C8: for every position of the ciphertext text produced by
encrypt, flipping the byte at that position before calling decrypt with
the same key makes decryption fail with an absent result — never a
silently wrong plaintext. -/
theorem decrypt_flipped_ciphertext_fails (message key : String) (raw : Bytes)
    (ts1 ts2 : Nat) (iv1 iv2 : Bytes) (c tampered : String) (i : Nat)
    (hkey : fernetInit key = some raw)
    (hiv1 : ∀ v ∈ iv1, v < 256) (hiv2 : ∀ v ∈ iv2, v < 256)
    (hc : (encrypt message key ts1 iv1 ts2 iv2).1 = some c)
    (hi : i < (strEncode c).length)
    (ht : strEncode tampered = flipAt i (strEncode c)) :
    (decrypt tampered key).1 = none := by
  obtain ⟨c0, hbody, henc⟩ := encryptBody_ok message hkey ts1 ts2 hiv1 hiv2
  have hE : (encrypt message key ts1 iv1 ts2 iv2).1 = some c0 := by
    simp [encrypt, hbody]
  rw [hE] at hc
  simp only [Option.some.injEq] at hc
  subst hc
  rw [henc] at hi ht
  have hdec : fernetDec raw (strEncode tampered) = none := by
    rw [ht]
    exact fernetDec_flipAt raw ts2 iv2 _ hi
  simp [decrypt, decryptBody, hkey, hdec]

/-- Claim C8 witness: flipping the first byte of a concrete ciphertext
produced under the all-zero valid key makes decryption return an absent
result. -/
theorem decrypt_flipped_ciphertext_fails_witness :
    (encrypt "" (b64encodeText (List.replicate 32 0)) 0 [] 0 []).1 =
      some ((encrypt "" (b64encodeText (List.replicate 32 0)) 0 [] 0 []).1.getD "") ∧
    (decrypt
      ((strDecode (flipAt 0 (strEncode
        ((encrypt "" (b64encodeText (List.replicate 32 0)) 0 [] 0 []).1.getD "")))).getD "")
      (b64encodeText (List.replicate 32 0))).1 = none :=
  ⟨by decide,
   decrypt_flipped_ciphertext_fails "" (b64encodeText (List.replicate 32 0))
     (List.replicate 32 0) 0 0 [] []
     ((encrypt "" (b64encodeText (List.replicate 32 0)) 0 [] 0 []).1.getD "")
     ((strDecode (flipAt 0 (strEncode
       ((encrypt "" (b64encodeText (List.replicate 32 0)) 0 [] 0 []).1.getD "")))).getD "")
     0 (by decide) (by decide) (by decide) (by decide) (by decide) (by decide)⟩

end Charlotte
